import Mathlib

/-!
Shallow embedding of `model/puller.go` (the repository puller).

Modelling conventions:
* Go machine integers are `Int` (no overflow occurs in the modelled code paths);
  the one place where a concrete Go constant matters, `2<<30 - 1`, is kept exact.
* The Go maps `activityMap` (`map[string]int`, reads of absent keys yield the zero
  value) and `puller.openFiles` (`map[string]openFile`) become total functions
  `String → Int` and `String → Option openFile`; `p.openFiles[f.Name]` without an
  `ok` check is a lookup with the zero `openFile` as default.
* Filesystem and network calls are modelled by an oracle environment (`Env`):
  each call site reads its outcome from the oracle, and every *attempted*
  state-changing operation is recorded in an event trace (`Event`), so theorems
  can speak about which operations a code path performs.
* `scanner`, `protocol`, `osutil`, `cid` and `versioner` are outside the source
  tree; the few helpers used from them are modelled from the spec and marked so.
-/

inductive GoErr where
  | notExist
  | other (msg : String)
deriving DecidableEq

structure Block where
  offset : Int
  size : Int
  hash : List Nat
deriving DecidableEq

/-- `scanner.File`: name, flags, modified time and ordered block list. -/
structure SFile where
  name : String
  flags : Nat
  modified : Int
  blocks : List Block
deriving DecidableEq

/-- Modelled from the spec: the protocol deleted-flag bit (package `protocol`
is outside `src/`; the spec gives a deleted bit independent of the low 12
mode bits). -/
def FlagDeleted : Nat := 1 <<< 12

/-- Modelled from the spec: the protocol directory-flag bit. -/
def FlagDirectory : Nat := 1 <<< 14

/-- Modelled from the spec: the protocol no-permission-bits flag; the
permission-bits-present predicate is its negation. -/
def FlagNoPermBits : Nat := 1 <<< 15

/-- Modelled from the spec: `protocol.IsDeleted`. -/
def IsDeleted (f : Nat) : Bool := f &&& FlagDeleted != 0

/-- Modelled from the spec: `protocol.IsDirectory`. -/
def IsDirectory (f : Nat) : Bool := f &&& FlagDirectory != 0

/-- Modelled from the spec: `protocol.HasPermissionBits`. -/
def HasPermissionBits (f : Nat) : Bool := f &&& FlagNoPermBits == 0

/-- Modelled from the spec: `scanner.PermsEqual` compares the low 9 mode bits
(package `scanner` is outside `src/`). -/
def PermsEqual (a b : Nat) : Bool := a &&& 0o777 == b &&& 0o777

/-- `filepath.Join` restricted to the two-argument uses in the source. -/
def pjoin (a b : String) : String := a ++ "/" ++ b

/-- `filepath.Base` on repo-relative slash-separated paths. -/
def baseName (p : String) : String := (p.splitOn "/").getLastD p

/-- `filepath.Dir` on slash-separated paths. -/
def dirOf (p : String) : String :=
  let parts := p.splitOn "/"
  if parts.length ≤ 1 then "." else String.intercalate "/" parts.dropLast

/-- Modelled from the spec: `defTempNamer.TempName` derives a hidden (dotted)
sibling name in the same directory (the temp namer is outside `src/`). -/
def tempName (n : String) : String :=
  if dirOf n = "." then ".syncthing." ++ baseName n
  else pjoin (dirOf n) (".syncthing." ++ baseName n)

/-- The `openFile` record; `hasFile` models `of.file != nil`.  Field defaults
are the Go zero value, which a map lookup of an absent key produces. -/
structure OpenFile where
  filepath : String := ""
  temp : String := ""
  availability : Nat := 0
  hasFile : Bool := false
  err : Option GoErr := none
  outstanding : Int := 0
  done : Bool := false
deriving DecidableEq

def zeroOF : OpenFile := {}

/-- Map lookup with the Go zero value as default (`of := p.openFiles[f.Name]`). -/
def getOf (m : String → Option OpenFile) (k : String) : OpenFile := (m k).getD zeroOF

def ofInsert (m : String → Option OpenFile) (k : String) (v : OpenFile) :
    String → Option OpenFile :=
  fun x => if x = k then some v else m x

def ofErase (m : String → Option OpenFile) (k : String) : String → Option OpenFile :=
  fun x => if x = k then none else m x

def mupd (m : String → Int) (k : String) (v : Int) : String → Int :=
  fun x => if x = k then v else m x

/-- Modelled from the spec: the reserved local connection id (`cid.LocalID`,
outside `src/`). -/
def LocalID : Nat := 0

/-- The connection map consumed by `leastBusyNode`: `Names()` and `Get`. -/
structure CidMap where
  names : List String
  get : String → Nat

/-- The loop body of `activityMap.leastBusyNode`, folding over `cm.Names()`
with the running `(low, selected)` pair. -/
def lbnFold (m : String → Int) (availability : Nat) (g : String → Nat) :
    List String → Int × String → Int × String
  | [], acc => acc
  | node :: rest, (low, selected) =>
    if g node = LocalID then lbnFold m availability g rest (low, selected)
    else
      let usage := m node
      if availability &&& (1 <<< g node) ≠ 0 then
        if usage < low then lbnFold m availability g rest (usage, node)
        else lbnFold m availability g rest (low, selected)
      else lbnFold m availability g rest (low, selected)

/-- `activityMap.leastBusyNode`: `low` starts at `2<<30 - 1`, `selected` at the
empty string, and `m[selected]++` runs unconditionally after the loop. -/
def leastBusyNode (m : String → Int) (availability : Nat) (cm : CidMap) :
    (String → Int) × String :=
  let r := lbnFold m availability cm.get cm.names ((2 <<< 30) - 1, "")
  (mupd m r.2 (m r.2 + 1), r.2)

/-- `activityMap.decrease`. -/
def decrease (m : String → Int) (node : String) : String → Int :=
  mupd m node (m node - 1)

def errNoNode : GoErr := GoErr.other "no available source node"

/-- One attempted externally visible operation of the puller. -/
inductive Event where
  | finalize (name : String)
  | closeHandle (path : String)
  | openRead (path : String)
  | removeFile (path : String)
  | chtimes (path : String) (t : Int)
  | chmod (path : String) (mode : Nat)
  | showFile (path : String)
  | hideFile (path : String)
  | archive (path : String)
  | rename (src : String) (dst : String)
  | updateLocal (name : String)
  | statDir (path : String)
  | mkdirAll (path : String) (mode : Nat)
  | requestGlobal (node : String) (name : String) (offset : Int) (size : Int)
  | writeAt (path : String) (offset : Int)
deriving DecidableEq

/-- Oracle environment: repository configuration plus the outcome of every
filesystem/versioner call, keyed by the call's arguments. -/
structure Env where
  dir : String
  ignorePerms : Bool
  hasVersioner : Bool
  cm : CidMap
  availabilityOf : String → Nat
  statRes : String → Option GoErr
  createRes : String → Option GoErr
  openRes : String → Option GoErr
  writeRes : String → Int → Option GoErr
  readRes : String → Int → Option GoErr
  hashBlocks : String → List Block
  chtimesRes : String → Option GoErr
  chmodRes : String → Option GoErr
  archiveRes : String → Option GoErr
  renameRes : String → String → Option GoErr
  removeRes : String → Option GoErr
  mkdirRes : String → Option GoErr

/-- The puller state mutated by the reconciler task. -/
structure PullerSt where
  openFiles : String → Option OpenFile
  activity : String → Int

/-- A block-queue item (`bqBlock`). -/
structure BqBlock where
  file : SFile
  block : Block
  copy : List Block
  last : Bool

/-- A `requestResult` deposited by a request task; `err` is the transport
error from `requestGlobal`. -/
structure RequestResult where
  node : String
  file : SFile
  fpath : String
  offset : Int
  data : List Nat
  err : Option GoErr

/-- The hash-verification loop of `closeFile` (`bytes.Compare` on each pair). -/
def hashesMatch (hb tb : List Block) : Bool :=
  (hb.zip tb).all fun ab => ab.1.hash == ab.2.hash

/-- The event trace of `puller.closeFile` on the entry `ofv`: close the temp
handle, re-open and re-hash the temp, verify the block hashes, set mtime/mode,
unhide, optionally archive, rename, update the local model.  The deferred
`os.Remove(of.temp)` is the last event on every path.  `Event.finalize` marks
the invocation itself. -/
def closeFileEvs (ofv : OpenFile) (env : Env) (f : SFile) : List Event :=
  let evs0 : List Event := [Event.finalize f.name, Event.closeHandle ofv.temp]
  match env.openRes ofv.temp with
  | some _ => evs0 ++ [Event.removeFile ofv.temp]
  | none =>
    let evs1 := evs0 ++ [Event.openRead ofv.temp]
    let hb := env.hashBlocks ofv.temp
    if hb.length ≠ f.blocks.length then evs1 ++ [Event.removeFile ofv.temp]
    else if !hashesMatch hb f.blocks then evs1 ++ [Event.removeFile ofv.temp]
    else
      let evs2 := evs1 ++ [Event.chtimes ofv.temp f.modified]
      let evs3 :=
        if !env.ignorePerms && HasPermissionBits f.flags then
          evs2 ++ [Event.chmod ofv.temp (f.flags &&& 0o777)]
        else evs2
      let evs4 := evs3 ++ [Event.showFile ofv.temp]
      if env.hasVersioner then
        match env.archiveRes ofv.filepath with
        | some _ => evs4 ++ [Event.archive ofv.filepath, Event.removeFile ofv.temp]
        | none =>
          let evs5 := evs4 ++ [Event.archive ofv.filepath, Event.rename ofv.temp ofv.filepath]
          match env.renameRes ofv.temp ofv.filepath with
          | none => evs5 ++ [Event.updateLocal f.name, Event.removeFile ofv.temp]
          | some _ => evs5 ++ [Event.removeFile ofv.temp]
      else
        let evs5 := evs4 ++ [Event.rename ofv.temp ofv.filepath]
        match env.renameRes ofv.temp ofv.filepath with
        | none => evs5 ++ [Event.updateLocal f.name, Event.removeFile ofv.temp]
        | some _ => evs5 ++ [Event.removeFile ofv.temp]

/-- `puller.closeFile`.  Its only state effect is deleting the open-file
entry (`delete(p.openFiles, f.Name)` runs before any fallible step and nothing
re-inserts it); the IO it performs is `closeFileEvs`. -/
def closeFile (st : PullerSt) (env : Env) (f : SFile) : PullerSt × List Event :=
  ({ st with openFiles := ofErase st.openFiles f.name },
   closeFileEvs (getOf st.openFiles f.name) env f)

/-- `puller.handleRequestResult`: decrement the peer's activity, look up the
open file, write the returned bytes (the sticky error receives only the
`WriteAt` outcome; `res.err` is never consulted, mirroring the source),
decrement `outstanding`, and finalize when `done && outstanding == 0`. -/
def handleRequestResult (st : PullerSt) (env : Env) (res : RequestResult) :
    PullerSt × List Event :=
  let st1 : PullerSt := { st with activity := decrease st.activity res.node }
  let f := res.file
  match st1.openFiles f.name with
  | none => (st1, [])
  | some ofv =>
    match ofv.err with
    | some _ => (st1, [])
    | none =>
      let werr := env.writeRes ofv.temp res.offset
      let ofv1 := { ofv with err := werr, outstanding := ofv.outstanding - 1 }
      let st2 := { st1 with openFiles := ofInsert st1.openFiles f.name ofv1 }
      let evs := [Event.writeAt ofv.temp res.offset]
      if ofv1.done && ofv1.outstanding == 0 then
        let r := closeFile st2 env f
        (r.1, evs ++ r.2)
      else (st2, evs)

/-- The copy loop of `handleCopyBlock`: read each copy block from the existing
file and write it into the temp; the first failing read or write stops the
loop with that error. -/
def copyLoop (env : Env) (curPath tmpPath : String) : List Block → Option GoErr × List Event
  | [] => (none, [])
  | blk :: rest =>
    match env.readRes curPath blk.offset with
    | some e => (some e, [])
    | none =>
      match env.writeRes tmpPath blk.offset with
      | some e => (some e, [])
      | none =>
        let r := copyLoop env curPath tmpPath rest
        (r.1, Event.writeAt tmpPath blk.offset :: r.2)

/-- `puller.handleCopyBlock`: open the existing destination read-only and copy
the listed blocks into the temp; any error latches into the sticky error and
closes the temp handle. -/
def handleCopyBlock (st : PullerSt) (env : Env) (b : BqBlock) : PullerSt × List Event :=
  let f := b.file
  let ofv := getOf st.openFiles f.name
  match env.openRes ofv.filepath with
  | some e =>
    let ofv1 := { ofv with err := some e, hasFile := false }
    ({ st with openFiles := ofInsert st.openFiles f.name ofv1 },
     [Event.openRead ofv.filepath, Event.closeHandle ofv.temp])
  | none =>
    let r := copyLoop env ofv.filepath ofv.temp b.copy
    match r.1 with
    | some e =>
      let ofv1 := { ofv with err := some e, hasFile := false }
      ({ st with openFiles := ofInsert st.openFiles f.name ofv1 },
       Event.openRead ofv.filepath :: r.2 ++ [Event.closeHandle ofv.temp])
    | none => (st, Event.openRead ofv.filepath :: r.2)

/-- `puller.handleRequestBlock`: pick the least busy node; on the empty
selection latch `errNoNode`, tear down the temp, and drop the entry on `last`;
otherwise increment `outstanding` and dispatch a request task.  (The source
panics when the entry is absent; callers store the entry first.) -/
def handleRequestBlock (st : PullerSt) (env : Env) (b : BqBlock) :
    PullerSt × List Event × Bool :=
  let f := b.file
  let ofv := getOf st.openFiles f.name
  let lr := leastBusyNode st.activity ofv.availability env.cm
  let st1 : PullerSt := { st with activity := lr.1 }
  let node := lr.2
  if node = "" then
    let evs := if ofv.hasFile then [Event.closeHandle ofv.temp, Event.removeFile ofv.temp] else []
    let ofv1 := { ofv with err := some errNoNode, hasFile := false }
    if b.last then ({ st1 with openFiles := ofErase st1.openFiles f.name }, evs, true)
    else ({ st1 with openFiles := ofInsert st1.openFiles f.name ofv1 }, evs, true)
  else
    let ofv1 := { ofv with outstanding := ofv.outstanding + 1 }
    ({ st1 with openFiles := ofInsert st1.openFiles f.name ofv1 },
     [Event.requestGlobal node f.name b.block.offset b.block.size], false)

/-- The event trace of `puller.handleEmptyBlock` on the entry `ofv`:
tombstones remove the destination (or hand it to the versioner); absence of
the destination (`os.IsNotExist`) counts as success.  Metadata-only syncs set
mtime/mode on the temp and rename it. -/
def handleEmptyBlockEvs (ofv : OpenFile) (env : Env) (b : BqBlock) : List Event :=
  let f := b.file
  let evs0 : List Event :=
    if b.last && ofv.err == none then [Event.closeHandle ofv.temp] else []
  if IsDeleted f.flags then
    let evs1 := evs0 ++ [Event.removeFile ofv.temp, Event.chmod ofv.filepath 0o666]
    if env.hasVersioner then
      match env.archiveRes ofv.filepath with
      | none => evs1 ++ [Event.archive ofv.filepath, Event.updateLocal f.name]
      | some _ => evs1 ++ [Event.archive ofv.filepath]
    else
      match env.removeRes ofv.filepath with
      | none => evs1 ++ [Event.removeFile ofv.filepath, Event.updateLocal f.name]
      | some GoErr.notExist => evs1 ++ [Event.removeFile ofv.filepath, Event.updateLocal f.name]
      | some (GoErr.other _) => evs1 ++ [Event.removeFile ofv.filepath]
  else
    let evs1 := evs0 ++ [Event.chtimes ofv.temp f.modified]
    match env.chtimesRes ofv.temp with
    | some _ => evs1
    | none =>
      if !env.ignorePerms && HasPermissionBits f.flags then
        let evs2 := evs1 ++ [Event.chmod ofv.temp (f.flags &&& 0o777)]
        match env.chmodRes ofv.temp with
        | some _ => evs2
        | none => evs2 ++ [Event.showFile ofv.temp, Event.rename ofv.temp ofv.filepath] ++
            (match env.renameRes ofv.temp ofv.filepath with
             | none => [Event.updateLocal f.name]
             | some _ => [])
      else
        evs1 ++ [Event.showFile ofv.temp, Event.rename ofv.temp ofv.filepath] ++
          (match env.renameRes ofv.temp ofv.filepath with
           | none => [Event.updateLocal f.name]
           | some _ => [])

/-- `puller.handleEmptyBlock`.  Every path of the source drops the open-file
entry (the early returns at the chtimes/chmod failures and the final
`delete`); the IO it performs is `handleEmptyBlockEvs`. -/
def handleEmptyBlock (st : PullerSt) (env : Env) (b : BqBlock) : PullerSt × List Event :=
  ({ st with openFiles := ofErase st.openFiles b.file.name },
   handleEmptyBlockEvs (getOf st.openFiles b.file.name) env b)

/-- The part of `handleBlock` from the sticky-error check onward (source line
406): a latched error short-circuits the item (dropping the entry on `last`);
otherwise the entry is stored and the item dispatches to the copy, request or
empty path. -/
def hbAfterOpen (st : PullerSt) (env : Env) (b : BqBlock) (ofv : OpenFile)
    (evs : List Event) : PullerSt × List Event × Bool :=
  let f := b.file
  match ofv.err with
  | some _ =>
    if b.last then ({ st with openFiles := ofErase st.openFiles f.name }, evs, true)
    else (st, evs, true)
  | none =>
    let st1 := { st with openFiles := ofInsert st.openFiles f.name ofv }
    if b.copy.length > 0 then
      let r := handleCopyBlock st1 env b
      (r.1, evs ++ r.2, true)
    else if b.block.size > 0 then
      let r := handleRequestBlock st1 env b
      (r.1, evs ++ r.2.1, r.2.2)
    else
      let r := handleEmptyBlock st1 env b
      (r.1, evs ++ r.2, true)

/-- `puller.handleBlock`: directories are created (never deleted) here and the
local model updated; for regular files the first item opens the temp file, a
latched error short-circuits, and the item dispatches by kind.  Returns the
"slot may be reused" boolean of the source. -/
def handleBlock (st : PullerSt) (env : Env) (b : BqBlock) : PullerSt × List Event × Bool :=
  let f := b.file
  if IsDirectory f.flags then
    let path := pjoin env.dir f.name
    let evs :=
      if !IsDeleted f.flags then
        match env.statRes path with
        | some GoErr.notExist => [Event.statDir path, Event.mkdirAll path 0o777]
        | _ => [Event.statDir path]
      else []
    (st, evs ++ [Event.updateLocal f.name], true)
  else
    match st.openFiles f.name with
    | some ofv0 =>
      hbAfterOpen st env b { ofv0 with done := b.last } []
    | none =>
      let ofv1 : OpenFile := { zeroOF with
        done := b.last
        availability := env.availabilityOf f.name
        filepath := pjoin env.dir f.name
        temp := pjoin env.dir (tempName f.name) }
      let dn := dirOf ofv1.filepath
      let evs0 :=
        match env.statRes dn with
        | some _ => [Event.statDir dn, Event.mkdirAll dn 0o777]
        | none => [Event.statDir dn]
      match env.createRes ofv1.temp with
      | some e =>
        let ofv2 := { ofv1 with err := some e }
        if !b.last then
          ({ st with openFiles := ofInsert st.openFiles f.name ofv2 }, evs0, true)
        else (st, evs0, true)
      | none =>
        hbAfterOpen st env b { ofv1 with hasFile := true }
          (evs0 ++ [Event.hideFile ofv1.temp])

/-! ### Directory fixup (`puller.fixupDirectories`) -/

/-- The file descriptor returned by `Model.CurrentRepoFile` (name, flags,
modified time are the fields the fixup pass reads). -/
structure FileRec where
  name : String
  flags : Nat
  modified : Int

/-- One entry of the walked directory tree: absolute path, repo-relative
name, whether it is a directory, and the `os.FileInfo` mode and mtime. -/
structure FEntry where
  path : String
  rn : String
  isDir : Bool
  mode : Nat
  mtime : Int
deriving DecidableEq

/-- Environment of the fixup pass: the model view and the outcome oracles of
`os.Chmod`, `os.Chtimes` and `os.Remove` (keyed by path; a failed call leaves
the tree unchanged and is only logged). -/
structure FEnv where
  current : String → FileRec
  ignorePerms : Bool
  chmodFails : String → Bool
  chtimesFails : String → Bool
  removeFails : String → Bool

/-- The early exits of `walkFn`: non-directories, the repository root, the
`.stversions` subtree, and paths without a matching model entry. -/
def walkSkip (env : FEnv) (e : FEntry) : Bool :=
  !e.isDir || e.rn == "." || baseName e.rn == ".stversions" ||
    (env.current e.rn).name != e.rn

/-- The permission-restoring step of `walkFn`: returns the new mode and the
`changed` increment (failures change nothing and count nothing). -/
def chmodPass (env : FEnv) (cur : FileRec) (e : FEntry) : Nat × Nat :=
  if !env.ignorePerms && HasPermissionBits cur.flags && !PermsEqual cur.flags e.mode then
    if env.chmodFails e.path then (e.mode, 0) else (cur.flags &&& 0o777, 1)
  else (e.mode, 0)

/-- The mtime-restoring step of `walkFn`. -/
def chtimesPass (env : FEnv) (cur : FileRec) (e : FEntry) : Int × Nat :=
  if cur.modified == e.mtime then (e.mtime, 0)
  else if env.chtimesFails e.path then (e.mtime, 0)
  else (cur.modified, 1)

/-- `walkFn` on one entry: the updated entry, its `changed` contribution, and
`some path` when the entry is a tombstoned directory queued for deletion. -/
def walkOne (env : FEnv) (e : FEntry) : FEntry × Nat × Option String :=
  if walkSkip env e then (e, 0, none)
  else
    let cur := env.current e.rn
    if IsDeleted cur.flags then (e, 0, some e.path)
    else
      let mp := chmodPass env cur e
      let e1 := { e with mode := mp.1 }
      let tp := chtimesPass env cur e1
      ({ e1 with mtime := tp.1 }, mp.2 + tp.2, none)

/-- Strict-descendant test on slash-separated paths. -/
def isUnder (parent child : String) : Bool :=
  child.take (parent.length + 1) == parent ++ "/"

/-- `os.Remove` on a directory succeeds when the path is present, has no
descendant left in the tree, and the oracle does not fail it. -/
def removeOk (env : FEnv) (t : List FEntry) (dir : String) : Bool :=
  (t.any fun e => e.path == dir) && !(t.any fun e => isUnder dir e.path) &&
    !env.removeFails dir

/-- The deletion loop after the walk: attempt `os.Remove` on each queued path
in the given order, counting successes and recording the attempt order. -/
def delFold (env : FEnv) : List String → List FEntry → Nat → List String →
    List FEntry × Nat × List String
  | [], t, d, a => (t, d, a)
  | dir :: rest, t, d, a =>
    if removeOk env t dir then
      delFold env rest (t.filter fun e => !(e.path == dir)) (d + 1) (a ++ [dir])
    else delFold env rest t d (a ++ [dir])

/-- The result of one iteration of the outer loop of `fixupDirectories`. -/
structure StepOut where
  tree : List FEntry
  changed : Nat
  deleted : Nat
  queue : List String
  attempts : List String

/-- One iteration of `fixupDirectories`: walk the tree (restoring metadata and
queueing tombstoned directories in walk order), then delete the queue in
reverse order. -/
def fixupStep (env : FEnv) (t : List FEntry) : StepOut :=
  let tree1 := t.map fun e => (walkOne env e).1
  let changed := (t.map fun e => (walkOne env e).2.1).sum
  let queue := t.filterMap fun e => (walkOne env e).2.2
  let r := delFold env queue.reverse tree1 0 []
  ⟨r.1, changed, r.2.1, queue, r.2.2⟩

/-- The outer loop of `fixupDirectories`, with explicit fuel: it returns the
tree when an iteration performs no change and no deletion. -/
def fixupLoop (env : FEnv) : Nat → List FEntry → Option (List FEntry)
  | 0, _ => none
  | fuel + 1, t =>
    let s := fixupStep env t
    if s.changed + s.deleted = 0 then some s.tree
    else fixupLoop env fuel s.tree

/-- The `changed` contribution a single entry would produce. -/
def entryChanged (env : FEnv) (e : FEntry) : Nat := (walkOne env e).2.1

/-- Whether a single entry is a tombstoned directory the walk queues. -/
def entryQueued (env : FEnv) (e : FEntry) : Bool := (walkOne env e).2.2.isSome

/-- Total pending successful metadata restorations of a tree. -/
def fixables (env : FEnv) (t : List FEntry) : Nat := (t.map (entryChanged env)).sum

/-- Number of tombstoned directories of a tree. -/
def tombs (env : FEnv) (t : List FEntry) : Nat := t.countP (entryQueued env)

/-- Termination measure of the outer loop. -/
def fmeasure (env : FEnv) (t : List FEntry) : Nat := fixables env t + tombs env t

/-! ### Peer selection (`leastBusyNode`) -/

/-- Eligibility of a connection-map entry inside the selection loop: not the
local peer, and its availability bit is set. -/
def eligG (a : Nat) (g : String → Nat) (n : String) : Prop :=
  g n ≠ LocalID ∧ a &&& (1 <<< g n) ≠ 0

/-- A peer the claim ranges over: connected (in the map), not local, with its
availability bit set. -/
def eligible (a : Nat) (cm : CidMap) (n : String) : Prop :=
  n ∈ cm.names ∧ cm.get n ≠ LocalID ∧ a &&& (1 <<< cm.get n) ≠ 0

theorem lbnFold_spec (m : String → Int) (a : Nat) (g : String → Nat)
    (ns : List String) :
    ∀ (low : Int) (selected : String) (low' : Int) (sel' : String),
    lbnFold m a g ns (low, selected) = (low', sel') →
    (low' = low ∧ sel' = selected ∧ ∀ n ∈ ns, eligG a g n → low ≤ m n) ∨
    (∃ pre post, ns = pre ++ sel' :: post ∧ eligG a g sel' ∧ low' = m sel' ∧
      m sel' < low ∧ (∀ n ∈ pre, eligG a g n → m sel' < m n) ∧
      (∀ n ∈ post, eligG a g n → m sel' ≤ m n)) := by
  induction ns with
  | nil =>
    intro low selected low' sel' h
    simp only [lbnFold] at h
    cases h
    exact Or.inl ⟨rfl, rfl, by simp⟩
  | cons node rest ih =>
    intro low selected low' sel' h
    simp only [lbnFold] at h
    by_cases hloc : g node = LocalID
    · rw [if_pos hloc] at h
      rcases ih low selected low' sel' h with ⟨h1, h2, hall⟩ | ⟨pre, post, hdec, helig, hlow, hlt, hpre, hpost⟩
      · refine Or.inl ⟨h1, h2, ?_⟩
        intro n hn he
        rcases List.mem_cons.mp hn with rfl | hn'
        · exact absurd hloc he.1
        · exact hall n hn' he
      · refine Or.inr ⟨node :: pre, post, by rw [hdec]; rfl, helig, hlow, hlt, ?_, hpost⟩
        intro n hn he
        rcases List.mem_cons.mp hn with rfl | hn'
        · exact absurd hloc he.1
        · exact hpre n hn' he
    · rw [if_neg hloc] at h
      by_cases hbit : a &&& (1 <<< g node) ≠ 0
      · rw [if_pos hbit] at h
        by_cases hlt0 : m node < low
        · rw [if_pos hlt0] at h
          rcases ih (m node) node low' sel' h with ⟨h1, h2, hall⟩ | ⟨pre, post, hdec, helig, hlow, hlt, hpre, hpost⟩
          · subst h2
            refine Or.inr ⟨[], rest, rfl, ⟨hloc, hbit⟩, h1, hlt0, by simp, ?_⟩
            intro n hn he
            exact hall n hn he
          · refine Or.inr ⟨node :: pre, post, by rw [hdec]; rfl, helig, hlow,
              lt_trans hlt hlt0, ?_, hpost⟩
            intro n hn he
            rcases List.mem_cons.mp hn with rfl | hn'
            · exact hlt
            · exact hpre n hn' he
        · rw [if_neg hlt0] at h
          rcases ih low selected low' sel' h with ⟨h1, h2, hall⟩ | ⟨pre, post, hdec, helig, hlow, hlt, hpre, hpost⟩
          · refine Or.inl ⟨h1, h2, ?_⟩
            intro n hn he
            rcases List.mem_cons.mp hn with rfl | hn'
            · exact not_lt.mp hlt0
            · exact hall n hn' he
          · refine Or.inr ⟨node :: pre, post, by rw [hdec]; rfl, helig, hlow, hlt, ?_, hpost⟩
            intro n hn he
            rcases List.mem_cons.mp hn with rfl | hn'
            · exact lt_of_lt_of_le hlt (not_lt.mp hlt0)
            · exact hpre n hn' he
      · rw [if_neg hbit] at h
        rcases ih low selected low' sel' h with ⟨h1, h2, hall⟩ | ⟨pre, post, hdec, helig, hlow, hlt, hpre, hpost⟩
        · refine Or.inl ⟨h1, h2, ?_⟩
          intro n hn he
          rcases List.mem_cons.mp hn with rfl | hn'
          · exact absurd he.2 hbit
          · exact hall n hn' he
        · refine Or.inr ⟨node :: pre, post, by rw [hdec]; rfl, helig, hlow, hlt, ?_, hpost⟩
          intro n hn he
          rcases List.mem_cons.mp hn with rfl | hn'
          · exact absurd he.2 hbit
          · exact hpre n hn' he

/-- **C1 counterexample.** With only the local peer connected (so no peer is
selectable), `leastBusyNode` returns the empty selection yet still executes
`m[selected]++`, incrementing the activity-map counter of the empty-string
key from 0 to 1 — so a counter in the activity map does change. -/
theorem leastBusyNode_empty_selection_increments :
    (leastBusyNode (fun _ => 0) 1 ⟨["local"], fun _ => 0⟩).2 = "" ∧
    (leastBusyNode (fun _ => 0) 1 ⟨["local"], fun _ => 0⟩).1 "" = 1 ∧
    (fun (_ : String) => (0 : Int)) "" = 0 := by
  refine ⟨by decide, by decide, rfl⟩

/-- **C1 (amended).** `leastBusyNode` selects, among the connected non-local
peers whose availability bit is set, the first (in connection-map iteration
order) whose outstanding count is minimal, provided some such peer has a count
below the initial sentinel `2<<30 - 1`; otherwise it returns the empty
selection.  The increment `m[selected]++` runs unconditionally: on success only
the selected peer's counter changes, and on the empty selection the counter of
the empty-string key is incremented. -/
theorem leastBusyNode_characterization (m : String → Int) (a : Nat) (cm : CidMap)
    (hne : "" ∉ cm.names) :
    ((leastBusyNode m a cm).2 = "" →
      (∀ n, eligible a cm n → (2 <<< 30) - 1 ≤ m n) ∧
      (leastBusyNode m a cm).1 = mupd m "" (m "" + 1)) ∧
    ((leastBusyNode m a cm).2 ≠ "" →
      eligible a cm (leastBusyNode m a cm).2 ∧
      (∀ n, eligible a cm n → m (leastBusyNode m a cm).2 ≤ m n) ∧
      (∃ pre post, cm.names = pre ++ (leastBusyNode m a cm).2 :: post ∧
        ∀ n ∈ pre, eligible a cm n → m (leastBusyNode m a cm).2 < m n) ∧
      (leastBusyNode m a cm).1 =
        mupd m (leastBusyNode m a cm).2 (m (leastBusyNode m a cm).2 + 1)) := by
  obtain ⟨low', sel', hfold⟩ :
      ∃ lo se, lbnFold m a cm.get cm.names ((2 <<< 30) - 1, "") = (lo, se) :=
    ⟨_, _, rfl⟩
  have hsel : (leastBusyNode m a cm).2 = sel' := by
    simp only [leastBusyNode]
    rw [hfold]
  have hmap : (leastBusyNode m a cm).1 = mupd m sel' (m sel' + 1) := by
    simp only [leastBusyNode]
    rw [hfold]
  rw [hsel, hmap]
  rcases lbnFold_spec m a cm.get cm.names _ _ _ _ hfold with
    ⟨_, hsel0, hall⟩ | ⟨pre, post, hdec, helig, _, _, hpre, hpost⟩
  · subst hsel0
    constructor
    · intro _
      exact ⟨fun n hn => hall n hn.1 ⟨hn.2.1, hn.2.2⟩, rfl⟩
    · intro hc
      exact absurd rfl hc
  · have hmem : sel' ∈ cm.names := by
      rw [hdec]
      exact List.mem_append.mpr (Or.inr (List.mem_cons_self _ _))
    have hnz : sel' ≠ "" := fun h0 => hne (h0 ▸ hmem)
    constructor
    · intro h0
      exact absurd h0 hnz
    · intro _
      refine ⟨⟨hmem, helig.1, helig.2⟩, ?_, ⟨pre, post, hdec, fun n hn he => hpre n hn ⟨he.2.1, he.2.2⟩⟩, rfl⟩
      intro n hn
      have hmem' := hn.1
      rw [hdec] at hmem'
      rcases List.mem_append.mp hmem' with hp | hp
      · exact le_of_lt (hpre n hp ⟨hn.2.1, hn.2.2⟩)
      · rcases List.mem_cons.mp hp with rfl | hp'
        · exact le_refl _
        · exact hpost n hp' ⟨hn.2.1, hn.2.2⟩

/-- Witness for `leastBusyNode_characterization` at a concrete two-peer map. -/
theorem leastBusyNode_characterization_witness :
    eligible 2 ⟨["a", "b"], fun n => if n = "a" then 1 else 2⟩
      (leastBusyNode (fun _ => 0) 2 ⟨["a", "b"], fun n => if n = "a" then 1 else 2⟩).2 :=
  ((leastBusyNode_characterization (fun _ => 0) 2
      ⟨["a", "b"], fun n => if n = "a" then 1 else 2⟩ (by decide)).2 (by decide)).1

/-! ### Request results -/

/-- `closeFile` only closes/erases the open-file entry: its resulting state is
the input state with the entry removed, in every branch. -/
theorem closeFile_fst (st : PullerSt) (env : Env) (f : SFile) :
    (closeFile st env f).1 = { st with openFiles := ofErase st.openFiles f.name } := rfl

/-- **C9.** Every request result decrements the originating peer's activity
counter exactly once, in all cases: entry missing, sticky error already set,
ordinary write, or finalization (the decrement precedes the lookup and
`closeFile` never touches the activity map). -/
theorem handleRequestResult_decrements_once (st : PullerSt) (env : Env)
    (res : RequestResult) :
    (handleRequestResult st env res).1.activity = decrease st.activity res.node := by
  unfold handleRequestResult
  cases h : st.openFiles res.file.name with
  | none => simp only [h]
  | some ofv =>
    cases he : ofv.err with
    | some e => simp only [h, he]
    | none =>
      simp only [h, he]
      split
      · rw [closeFile_fst]
      · rfl

def c2of : OpenFile :=
  { filepath := "r/f2", temp := "r/.syncthing.f2", hasFile := true, outstanding := 2 }

def c2st : PullerSt :=
  { openFiles := fun n => if n = "f2" then some c2of else none, activity := fun _ => 0 }

def c2env : Env :=
  { dir := "r", ignorePerms := false, hasVersioner := false, cm := ⟨[], fun _ => 0⟩,
    availabilityOf := fun _ => 0, statRes := fun _ => none, createRes := fun _ => none,
    openRes := fun _ => none, writeRes := fun _ _ => none, readRes := fun _ _ => none,
    hashBlocks := fun _ => [], chtimesRes := fun _ => none, chmodRes := fun _ => none,
    archiveRes := fun _ => none, renameRes := fun _ _ => none, removeRes := fun _ => none,
    mkdirRes := fun _ => none }

def c2res : RequestResult :=
  { node := "peerA", file := { name := "f2", flags := 0, modified := 0, blocks := [] },
    fpath := "r/f2", offset := 0, data := [],
    err := some (GoErr.other "connection reset") }

/-- **C2 (code bug).** A request result carrying a transport error from
`requestGlobal` arrives for a file whose OpenFile has no sticky error, yet the
error does **not** latch: `handleRequestResult` never reads `res.err`; it only
stores the outcome of `WriteAt` (which succeeds on the nil data of a failed
request), so the entry's sticky error stays `none` and the item is processed
as a successful write. -/
theorem handleRequestResult_drops_transport_error :
    c2res.err = some (GoErr.other "connection reset") ∧
    ((handleRequestResult c2st c2env c2res).1.openFiles "f2").map OpenFile.err =
      some none ∧
    (handleRequestResult c2st c2env c2res).2 = [Event.writeAt "r/.syncthing.f2" 0] := by
  refine ⟨rfl, by decide, by decide⟩

/-! ### Finalization (`closeFile`) -/

/-- The path an event mutates, if any (closing a handle, reading, stat and
the marker events mutate nothing; `rename` mutates its destination, its
source being the temp it consumes). -/
def touchesPath : Event → Option String
  | Event.removeFile p => some p
  | Event.chtimes p _ => some p
  | Event.chmod p _ => some p
  | Event.showFile p => some p
  | Event.hideFile p => some p
  | Event.archive p => some p
  | Event.rename _ d => some d
  | Event.mkdirAll p _ => some p
  | Event.writeAt p _ => some p
  | _ => none

theorem closeFileEvs_openFail (ofv : OpenFile) (env : Env) (f : SFile) (e : GoErr)
    (h : env.openRes ofv.temp = some e) :
    closeFileEvs ofv env f =
      [Event.finalize f.name, Event.closeHandle ofv.temp, Event.removeFile ofv.temp] := by
  simp [closeFileEvs, h]

theorem closeFileEvs_mismatch (ofv : OpenFile) (env : Env) (f : SFile)
    (h : env.openRes ofv.temp = none)
    (hmm : (env.hashBlocks ofv.temp).length ≠ f.blocks.length ∨
      hashesMatch (env.hashBlocks ofv.temp) f.blocks = false) :
    closeFileEvs ofv env f =
      [Event.finalize f.name, Event.closeHandle ofv.temp, Event.openRead ofv.temp,
       Event.removeFile ofv.temp] := by
  rcases hmm with hmm | hmm
  · simp [closeFileEvs, h, hmm]
  · by_cases hl : (env.hashBlocks ofv.temp).length ≠ f.blocks.length
    · simp [closeFileEvs, h, hl]
    · simp [closeFileEvs, h, hl, hmm]

theorem closeFileEvs_mem_rename (ofv : OpenFile) (env : Env) (f : SFile)
    (s d : String) (hm : Event.rename s d ∈ closeFileEvs ofv env f) :
    s = ofv.temp ∧ d = ofv.filepath ∧
    env.openRes ofv.temp = none ∧
    (env.hashBlocks ofv.temp).length = f.blocks.length ∧
    hashesMatch (env.hashBlocks ofv.temp) f.blocks = true ∧
    (env.hasVersioner = true → env.archiveRes ofv.filepath = none) := by
  simp only [closeFileEvs] at hm
  split at hm
  · simp at hm
  · next ho =>
    split at hm
    · simp at hm
    · next hl =>
      split at hm
      · simp at hm
      · next hh =>
        simp only [Bool.not_eq_true'] at hh
        split at hm
        · next hv =>
          split at hm
          · next e2 ha => split at hm <;> simp_all
          · next ha =>
            split at hm <;>
              (split at hm <;> simp_all)
        · next hv =>
          split at hm <;>
            (split at hm <;> simp_all)

theorem closeFileEvs_mem_updateLocal (ofv : OpenFile) (env : Env) (f : SFile)
    (n : String) (hm : Event.updateLocal n ∈ closeFileEvs ofv env f) :
    n = f.name ∧
    env.openRes ofv.temp = none ∧
    (env.hashBlocks ofv.temp).length = f.blocks.length ∧
    hashesMatch (env.hashBlocks ofv.temp) f.blocks = true ∧
    (env.hasVersioner = true → env.archiveRes ofv.filepath = none) ∧
    env.renameRes ofv.temp ofv.filepath = none := by
  simp only [closeFileEvs] at hm
  split at hm
  · simp at hm
  · next ho =>
    split at hm
    · simp at hm
    · next hl =>
      split at hm
      · simp at hm
      · next hh =>
        simp only [Bool.not_eq_true'] at hh
        split at hm
        · next hv =>
          split at hm
          · next e2 ha => split at hm <;> simp_all
          · next ha =>
            split at hm <;>
              (split at hm <;> simp_all)
        · next hv =>
          split at hm <;>
            (split at hm <;> simp_all)

theorem closeFileEvs_mem_archive (ofv : OpenFile) (env : Env) (f : SFile)
    (q : String) (hm : Event.archive q ∈ closeFileEvs ofv env f) :
    q = ofv.filepath ∧
    env.openRes ofv.temp = none ∧
    (env.hashBlocks ofv.temp).length = f.blocks.length ∧
    hashesMatch (env.hashBlocks ofv.temp) f.blocks = true ∧
    env.hasVersioner = true := by
  simp only [closeFileEvs] at hm
  split at hm
  · simp at hm
  · next ho =>
    split at hm
    · simp at hm
    · next hl =>
      split at hm
      · simp at hm
      · next hh =>
        simp only [Bool.not_eq_true'] at hh
        split at hm
        · next hv =>
          split at hm
          · next e2 ha => split at hm <;> simp_all
          · next ha =>
            split at hm <;>
              (split at hm <;> simp_all)
        · next hv =>
          split at hm <;>
            (split at hm <;> simp_all)

/-- **C3.** If the re-hashed temp file's block count differs from the target's
or any block hash differs, `closeFile` returns without renaming, without
archiving and without calling `updateLocal`; the trace's only filesystem
mutation is the deferred removal of the temp, so (temp and destination being
distinct paths) the destination file is untouched and the temp is removed. -/
theorem closeFile_hash_mismatch_aborts (st : PullerSt) (env : Env) (f : SFile)
    (hopen : env.openRes (getOf st.openFiles f.name).temp = none)
    (hmm : (env.hashBlocks (getOf st.openFiles f.name).temp).length ≠ f.blocks.length ∨
      hashesMatch (env.hashBlocks (getOf st.openFiles f.name).temp) f.blocks = false)
    (hne : (getOf st.openFiles f.name).temp ≠ (getOf st.openFiles f.name).filepath) :
    (∀ s d, Event.rename s d ∉ (closeFile st env f).2) ∧
    (∀ p, Event.archive p ∉ (closeFile st env f).2) ∧
    (∀ n, Event.updateLocal n ∉ (closeFile st env f).2) ∧
    Event.removeFile (getOf st.openFiles f.name).temp ∈ (closeFile st env f).2 ∧
    (∀ e ∈ (closeFile st env f).2,
      touchesPath e ≠ some (getOf st.openFiles f.name).filepath) := by
  have hevs : (closeFile st env f).2 =
      [Event.finalize f.name, Event.closeHandle (getOf st.openFiles f.name).temp,
       Event.openRead (getOf st.openFiles f.name).temp,
       Event.removeFile (getOf st.openFiles f.name).temp] :=
    closeFileEvs_mismatch _ env f hopen hmm
  rw [hevs]
  refine ⟨by simp, by simp, by simp, by simp, ?_⟩
  intro e he
  simp only [List.mem_cons, List.mem_singleton, List.not_mem_nil, or_false] at he
  rcases he with rfl | rfl | rfl | rfl <;> simp [touchesPath, hne]

def c3of : OpenFile :=
  { filepath := "r/f3", temp := "r/.syncthing.f3", hasFile := true, done := true }

def c3st : PullerSt :=
  { openFiles := fun n => if n = "f3" then some c3of else none, activity := fun _ => 0 }

def c3f : SFile :=
  { name := "f3", flags := 0, modified := 0, blocks := [⟨0, 1, [7]⟩] }

/-- Witness for `closeFile_hash_mismatch_aborts`: a one-block target whose
temp re-hashes to no blocks at all. -/
theorem closeFile_hash_mismatch_aborts_witness :
    Event.removeFile (getOf c3st.openFiles "f3").temp ∈ (closeFile c3st c2env c3f).2 ∧
    ∀ n, Event.updateLocal n ∉ (closeFile c3st c2env c3f).2 :=
  ⟨(closeFile_hash_mismatch_aborts c3st c2env c3f (by decide) (Or.inl (by decide))
      (by decide)).2.2.2.1,
   (closeFile_hash_mismatch_aborts c3st c2env c3f (by decide) (Or.inl (by decide))
      (by decide)).2.2.1⟩

def c4of : OpenFile :=
  { filepath := "r/d4", temp := "r/.syncthing.d4", hasFile := true, done := true }

def c4st : PullerSt :=
  { openFiles := fun n => if n = "d4" then some c4of else none, activity := fun _ => 0 }

def c4env : Env :=
  { c2env with chtimesRes := fun _ => some (GoErr.other "eperm") }

def c4f : SFile :=
  { name := "d4", flags := 0, modified := 5, blocks := [] }

/-- **C4 counterexample.** Setting the mtime fails (`os.Chtimes` returns an
error), yet `closeFile` proceeds: the temp is renamed over the destination and
`updateLocal` is called — the mtime step's failure does not abort the
finalization, contradicting the claim that the failure of any step aborts. -/
theorem closeFile_mtime_failure_does_not_abort :
    c4env.chtimesRes "r/.syncthing.d4" = some (GoErr.other "eperm") ∧
    Event.rename "r/.syncthing.d4" "r/d4" ∈ (closeFile c4st c4env c4f).2 ∧
    Event.updateLocal "d4" ∈ (closeFile c4st c4env c4f).2 := by
  refine ⟨rfl, by decide, by decide⟩

/-- **C4 (amended).** In `closeFile`, failure of reopening the temp, of hash
verification, of archiving via the versioner, or of renaming aborts the
finalization — the temp is not renamed over the destination and `updateLocal`
is not called (a failed rename attempt is followed by no `updateLocal`).
Failures of setting the mtime or the mode are only logged and do not abort. -/
theorem closeFile_abort_conditions (st : PullerSt) (env : Env) (f : SFile) :
    (env.openRes (getOf st.openFiles f.name).temp ≠ none →
      (∀ s d, Event.rename s d ∉ (closeFile st env f).2) ∧
      (∀ n, Event.updateLocal n ∉ (closeFile st env f).2)) ∧
    ((env.hashBlocks (getOf st.openFiles f.name).temp).length ≠ f.blocks.length ∨
      hashesMatch (env.hashBlocks (getOf st.openFiles f.name).temp) f.blocks = false →
      (∀ s d, Event.rename s d ∉ (closeFile st env f).2) ∧
      (∀ n, Event.updateLocal n ∉ (closeFile st env f).2)) ∧
    (env.hasVersioner = true →
      env.archiveRes (getOf st.openFiles f.name).filepath ≠ none →
      (∀ s d, Event.rename s d ∉ (closeFile st env f).2) ∧
      (∀ n, Event.updateLocal n ∉ (closeFile st env f).2)) ∧
    (env.renameRes (getOf st.openFiles f.name).temp (getOf st.openFiles f.name).filepath ≠ none →
      ∀ n, Event.updateLocal n ∉ (closeFile st env f).2) := by
  refine ⟨?_, ?_, ?_, ?_⟩
  · intro ho
    constructor
    · intro s d hm
      exact ho (closeFileEvs_mem_rename _ env f s d hm).2.2.1
    · intro n hm
      exact ho (closeFileEvs_mem_updateLocal _ env f n hm).2.1
  · intro hmm
    constructor
    · intro s d hm
      rcases hmm with hmm | hmm
      · exact hmm (closeFileEvs_mem_rename _ env f s d hm).2.2.2.1
      · exact absurd (closeFileEvs_mem_rename _ env f s d hm).2.2.2.2.1 (by simp [hmm])
    · intro n hm
      rcases hmm with hmm | hmm
      · exact hmm (closeFileEvs_mem_updateLocal _ env f n hm).2.2.1
      · exact absurd (closeFileEvs_mem_updateLocal _ env f n hm).2.2.2.1 (by simp [hmm])
  · intro hv ha
    constructor
    · intro s d hm
      exact ha ((closeFileEvs_mem_rename _ env f s d hm).2.2.2.2.2 hv)
    · intro n hm
      exact ha ((closeFileEvs_mem_updateLocal _ env f n hm).2.2.2.2.1 hv)
  · intro hr n hm
    exact hr (closeFileEvs_mem_updateLocal _ env f n hm).2.2.2.2.2

def c4aenv : Env :=
  { c2env with openRes := fun _ => some (GoErr.other "enoent") }

/-- Witness for `closeFile_abort_conditions`: with a failing reopen of the
temp, no rename and no `updateLocal` appear on the trace. -/
theorem closeFile_abort_conditions_witness :
    (∀ s d, Event.rename s d ∉ (closeFile c4st c4aenv c4f).2) ∧
    (∀ n, Event.updateLocal n ∉ (closeFile c4st c4aenv c4f).2) :=
  (closeFile_abort_conditions c4st c4aenv c4f).1 (by decide)

theorem finalize_mem_closeFileEvs (ofv : OpenFile) (env : Env) (f : SFile) :
    Event.finalize f.name ∈ closeFileEvs ofv env f := by
  simp only [closeFileEvs]
  repeat' split
  all_goals simp

theorem hrr_none (st : PullerSt) (env : Env) (res : RequestResult)
    (hl : st.openFiles res.file.name = none) :
    handleRequestResult st env res =
      ({ st with activity := decrease st.activity res.node }, []) := by
  unfold handleRequestResult
  simp only [hl]

theorem hrr_err (st : PullerSt) (env : Env) (res : RequestResult) (ofv : OpenFile)
    (e : GoErr) (hl : st.openFiles res.file.name = some ofv) (he : ofv.err = some e) :
    handleRequestResult st env res =
      ({ st with activity := decrease st.activity res.node }, []) := by
  unfold handleRequestResult
  simp only [hl, he]

theorem hrr_noclose (st : PullerSt) (env : Env) (res : RequestResult) (ofv : OpenFile)
    (hl : st.openFiles res.file.name = some ofv) (he : ofv.err = none)
    (hg : ¬(ofv.done = true ∧ ofv.outstanding = 1)) :
    handleRequestResult st env res =
      ({ st with
          activity := decrease st.activity res.node
          openFiles := ofInsert st.openFiles res.file.name
            { ofv with err := env.writeRes ofv.temp res.offset,
                       outstanding := ofv.outstanding - 1 } },
       [Event.writeAt ofv.temp res.offset]) := by
  unfold handleRequestResult
  simp only [hl, he]
  rw [if_neg]
  simp only [Bool.and_eq_true, beq_iff_eq]
  intro hc
  exact hg ⟨hc.1, by omega⟩

theorem hrr_close (st : PullerSt) (env : Env) (res : RequestResult) (ofv : OpenFile)
    (hl : st.openFiles res.file.name = some ofv) (he : ofv.err = none)
    (hd : ofv.done = true) (ho : ofv.outstanding = 1) :
    handleRequestResult st env res =
      ({ st with
          activity := decrease st.activity res.node
          openFiles := ofErase
            (ofInsert st.openFiles res.file.name
              { ofv with err := env.writeRes ofv.temp res.offset,
                         outstanding := ofv.outstanding - 1 }) res.file.name },
       Event.writeAt ofv.temp res.offset ::
         closeFileEvs
           { ofv with err := env.writeRes ofv.temp res.offset,
                      outstanding := ofv.outstanding - 1 } env res.file) := by
  unfold handleRequestResult
  simp only [hl, he]
  rw [if_pos]
  · unfold closeFile
    simp [getOf, ofInsert]
  · simp only [Bool.and_eq_true, beq_iff_eq]
    exact ⟨hd, by omega⟩

theorem ofErase_apply_self (m : String → Option OpenFile) (k : String) :
    ofErase m k k = none := by
  simp [ofErase]

/-- **C5.** `closeFile` is invoked by a request result exactly when the entry
exists with no sticky error, its `done` flag is set and its outstanding count
(before the decrement) is 1 — i.e. `done && outstanding == 0` after the
decrement; once invoked, the entry is removed from the table, and any later
request result for the same name is discarded (no write, no finalization, no
table change), so `closeFile` runs at most once per OpenFile. -/
theorem handleRequestResult_finalize_once (st : PullerSt) (env : Env)
    (res : RequestResult) :
    (Event.finalize res.file.name ∈ (handleRequestResult st env res).2 ↔
      ∃ ofv, st.openFiles res.file.name = some ofv ∧ ofv.err = none ∧
        ofv.done = true ∧ ofv.outstanding = 1) ∧
    (Event.finalize res.file.name ∈ (handleRequestResult st env res).2 →
      (handleRequestResult st env res).1.openFiles res.file.name = none) ∧
    (st.openFiles res.file.name = none →
      (handleRequestResult st env res).1.openFiles = st.openFiles ∧
      (handleRequestResult st env res).2 = []) ∧
    (∀ (env2 : Env) (res2 : RequestResult), res2.file.name = res.file.name →
      Event.finalize res.file.name ∈ (handleRequestResult st env res).2 →
      (handleRequestResult (handleRequestResult st env res).1 env2 res2).2 = [] ∧
      (handleRequestResult (handleRequestResult st env res).1 env2 res2).1.openFiles =
        (handleRequestResult st env res).1.openFiles) := by
  cases hl : st.openFiles res.file.name with
  | none =>
    rw [hrr_none st env res hl]
    refine ⟨by simp, by simp, fun _ => ⟨rfl, rfl⟩, ?_⟩
    intro env2 res2 hn hmem
    simp at hmem
  | some ofv =>
    cases he : ofv.err with
    | some e =>
      rw [hrr_err st env res ofv e hl he]
      refine ⟨by simp [he], by simp, ?_, ?_⟩
      · intro h0
        simp at h0
      · intro env2 res2 hn hmem
        simp at hmem
    | none =>
      by_cases hg : ofv.done = true ∧ ofv.outstanding = 1
      · rw [hrr_close st env res ofv hl he hg.1 hg.2]
        have hnone : ofErase
            (ofInsert st.openFiles res.file.name
              { ofv with err := env.writeRes ofv.temp res.offset,
                         outstanding := ofv.outstanding - 1 }) res.file.name
            res.file.name = none := ofErase_apply_self _ _
        refine ⟨?_, ?_, ?_, ?_⟩
        · constructor
          · intro _
            exact ⟨ofv, rfl, he, hg.1, hg.2⟩
          · intro _
            exact List.mem_cons_of_mem _ (finalize_mem_closeFileEvs _ env res.file)
        · intro _
          exact hnone
        · intro h0
          simp at h0
        · intro env2 res2 hn _
          have hl2 : (({ st with
              activity := decrease st.activity res.node
              openFiles := ofErase
                (ofInsert st.openFiles res.file.name
                  { ofv with err := env.writeRes ofv.temp res.offset,
                             outstanding := ofv.outstanding - 1 }) res.file.name } :
              PullerSt)).openFiles res2.file.name = none := by
            rw [hn]
            exact hnone
          rw [hrr_none _ env2 res2 hl2]
          exact ⟨rfl, rfl⟩
      · rw [hrr_noclose st env res ofv hl he hg]
        refine ⟨?_, by simp, ?_, ?_⟩
        · constructor
          · intro hmem
            simp at hmem
          · rintro ⟨ofv2, hl2, he2, hd2, ho2⟩
            injection hl2 with h2
            subst h2
            exact absurd ⟨hd2, ho2⟩ hg
        · intro h0
          simp at h0
        · intro env2 res2 hn hmem
          simp at hmem

def c5of : OpenFile :=
  { filepath := "r/f5", temp := "r/.syncthing.f5", hasFile := true,
    outstanding := 1, done := true }

def c5st : PullerSt :=
  { openFiles := fun n => if n = "f5" then some c5of else none, activity := fun _ => 0 }

def c5res : RequestResult :=
  { node := "peerA", file := { name := "f5", flags := 0, modified := 0, blocks := [] },
    fpath := "r/f5", offset := 0, data := [], err := none }

/-- Witness for `handleRequestResult_finalize_once`: the last outstanding
result of a done file finalizes it and removes the entry. -/
theorem handleRequestResult_finalize_once_witness :
    Event.finalize "f5" ∈ (handleRequestResult c5st c2env c5res).2 ∧
    (handleRequestResult c5st c2env c5res).1.openFiles "f5" = none :=
  ⟨(handleRequestResult_finalize_once c5st c2env c5res).1.mpr
      ⟨c5of, by decide, rfl, rfl, rfl⟩,
   (handleRequestResult_finalize_once c5st c2env c5res).2.1
      ((handleRequestResult_finalize_once c5st c2env c5res).1.mpr
        ⟨c5of, by decide, rfl, rfl, rfl⟩)⟩

/-! ### Block dispatch (`handleBlock`) -/

/-- **C7.** A block item for a non-directory file whose OpenFile already
carries a sticky error is fully short-circuited: `handleBlock` returns true,
performs no operation at all (no copy, no network request, no empty-block
handling), leaves the activity map alone, and removes the entry from the
table exactly when the item's `last` flag is set. -/
theorem handleBlock_sticky_error_short_circuits (st : PullerSt) (env : Env)
    (b : BqBlock) (ofv : OpenFile) (hdir : IsDirectory b.file.flags = false)
    (hof : st.openFiles b.file.name = some ofv) (herr : ofv.err ≠ none) :
    (handleBlock st env b).2.2 = true ∧
    (handleBlock st env b).2.1 = [] ∧
    (b.last = true → (handleBlock st env b).1.openFiles = ofErase st.openFiles b.file.name) ∧
    (b.last = false → (handleBlock st env b).1 = st) ∧
    (handleBlock st env b).1.activity = st.activity := by
  obtain ⟨e, he⟩ := Option.ne_none_iff_exists'.mp herr
  unfold handleBlock
  simp only [hdir, Bool.false_eq_true, if_false, hof]
  unfold hbAfterOpen
  simp only [he]
  cases hb : b.last <;> simp [hb]

def c7of : OpenFile :=
  { filepath := "r/f7", temp := "r/.syncthing.f7", err := some (GoErr.other "io") }

def c7st : PullerSt :=
  { openFiles := fun n => if n = "f7" then some c7of else none, activity := fun _ => 0 }

def c7b : BqBlock :=
  { file := { name := "f7", flags := 0, modified := 0, blocks := [] },
    block := { offset := 0, size := 1, hash := [] }, copy := [], last := true }

/-- Witness for `handleBlock_sticky_error_short_circuits` on a last item. -/
theorem handleBlock_sticky_error_short_circuits_witness :
    (handleBlock c7st c2env c7b).2.2 = true ∧ (handleBlock c7st c2env c7b).2.1 = [] ∧
    (handleBlock c7st c2env c7b).1.openFiles = ofErase c7st.openFiles "f7" :=
  ⟨(handleBlock_sticky_error_short_circuits c7st c2env c7b c7of rfl (by decide)
      (by decide)).1,
   (handleBlock_sticky_error_short_circuits c7st c2env c7b c7of rfl (by decide)
      (by decide)).2.1,
   (handleBlock_sticky_error_short_circuits c7st c2env c7b c7of rfl (by decide)
      (by decide)).2.2.1 rfl⟩

/-- **C8.** For a directory item `handleBlock` returns true, never touches the
puller state, and always calls `updateLocal`; when the deleted flag is unset
it creates the directory with mode `0777` exactly when `os.Stat` reports it
missing, and when the deleted flag is set it performs nothing but the
`updateLocal` — in particular no removal happens here (deletion is deferred to
the fixup pass). -/
theorem handleBlock_directory (st : PullerSt) (env : Env) (b : BqBlock)
    (hdir : IsDirectory b.file.flags = true) :
    (handleBlock st env b).2.2 = true ∧
    Event.updateLocal b.file.name ∈ (handleBlock st env b).2.1 ∧
    (IsDeleted b.file.flags = false →
      env.statRes (pjoin env.dir b.file.name) = some GoErr.notExist →
      Event.mkdirAll (pjoin env.dir b.file.name) 0o777 ∈ (handleBlock st env b).2.1) ∧
    (IsDeleted b.file.flags = false →
      env.statRes (pjoin env.dir b.file.name) ≠ some GoErr.notExist →
      ∀ p mo, Event.mkdirAll p mo ∉ (handleBlock st env b).2.1) ∧
    (IsDeleted b.file.flags = true →
      (handleBlock st env b).2.1 = [Event.updateLocal b.file.name]) ∧
    (∀ p, Event.removeFile p ∉ (handleBlock st env b).2.1) ∧
    (handleBlock st env b).1 = st := by
  unfold handleBlock
  simp only [hdir, if_true]
  refine ⟨trivial, ?_, ?_, ?_, ?_, ?_, trivial⟩
  · by_cases hdel : IsDeleted b.file.flags = true
    · simp [hdel]
    · simp only [Bool.not_eq_true] at hdel
      cases hs : env.statRes (pjoin env.dir b.file.name) with
      | none => simp [hdel, hs]
      | some e => cases e <;> simp [hdel, hs]
  · intro hdel hs
    simp [hdel, hs]
  · intro hdel hs p mo
    simp only [hdel, Bool.not_false, if_true]
    cases hstat : env.statRes (pjoin env.dir b.file.name) with
    | none => simp
    | some e =>
      cases e with
      | notExist => exact absurd hstat hs
      | other msg => simp
  · intro hdel
    simp [hdel]
  · intro p
    by_cases hdel : IsDeleted b.file.flags = true
    · simp [hdel]
    · simp only [Bool.not_eq_true] at hdel
      cases hs : env.statRes (pjoin env.dir b.file.name) with
      | none => simp [hdel, hs]
      | some e => cases e <;> simp [hdel, hs]

def c8b : BqBlock :=
  { file := { name := "d8", flags := FlagDirectory, modified := 0, blocks := [] },
    block := { offset := 0, size := 0, hash := [] }, copy := [], last := true }

def c8env : Env :=
  { c2env with statRes := fun _ => some GoErr.notExist }

def c8st : PullerSt :=
  { openFiles := fun _ => none, activity := fun _ => 0 }

/-- Witness for `handleBlock_directory`: a missing, non-deleted directory is
created with wide permissions and the local model updated. -/
theorem handleBlock_directory_witness :
    Event.updateLocal "d8" ∈ (handleBlock c8st c8env c8b).2.1 ∧
    Event.mkdirAll (pjoin c8env.dir "d8") 0o777 ∈ (handleBlock c8st c8env c8b).2.1 :=
  ⟨(handleBlock_directory c8st c8env c8b (by decide)).2.1,
   (handleBlock_directory c8st c8env c8b (by decide)).2.2.1 (by decide) (by decide)⟩

/-- **C10.** In the deletion-tombstone path of `handleEmptyBlock` with no
versioner configured, `updateLocal` is called both when removing the
destination succeeds and when the destination is already absent (the remove
fails with a not-exist error); any other removal error suppresses the
`updateLocal`. -/
theorem handleEmptyBlock_tombstone_notExist (st : PullerSt) (env : Env) (b : BqBlock)
    (hdel : IsDeleted b.file.flags = true) (hver : env.hasVersioner = false) :
    ((env.removeRes (getOf st.openFiles b.file.name).filepath = none ∨
      env.removeRes (getOf st.openFiles b.file.name).filepath = some GoErr.notExist) →
      Event.updateLocal b.file.name ∈ (handleEmptyBlock st env b).2) ∧
    (∀ msg, env.removeRes (getOf st.openFiles b.file.name).filepath =
        some (GoErr.other msg) →
      Event.updateLocal b.file.name ∉ (handleEmptyBlock st env b).2) := by
  constructor
  · intro hrem
    show Event.updateLocal b.file.name ∈
      handleEmptyBlockEvs (getOf st.openFiles b.file.name) env b
    unfold handleEmptyBlockEvs
    rcases hrem with hrem | hrem <;>
      simp [hdel, hver, hrem]
  · intro msg hrem
    show Event.updateLocal b.file.name ∉
      handleEmptyBlockEvs (getOf st.openFiles b.file.name) env b
    unfold handleEmptyBlockEvs
    simp [hdel, hver, hrem]

def c10of : OpenFile :=
  { filepath := "r/f10", temp := "r/.syncthing.f10", hasFile := true }

def c10st : PullerSt :=
  { openFiles := fun n => if n = "f10" then some c10of else none, activity := fun _ => 0 }

def c10env : Env :=
  { c2env with removeRes := fun p => if p = "r/f10" then some GoErr.notExist else none }

def c10b : BqBlock :=
  { file := { name := "f10", flags := FlagDeleted, modified := 0, blocks := [] },
    block := { offset := 0, size := 0, hash := [] }, copy := [], last := true }

/-- Witness for `handleEmptyBlock_tombstone_notExist`: the destination is
already gone (`os.Remove` reports not-exist) and `updateLocal` still runs. -/
theorem handleEmptyBlock_tombstone_notExist_witness :
    Event.updateLocal "f10" ∈ (handleEmptyBlock c10st c10env c10b).2 :=
  (handleEmptyBlock_tombstone_notExist c10st c10env c10b (by decide) rfl).1
    (Or.inr (by decide))

/-! ### Directory fixup: convergence -/

theorem land_idem_mask (a m : Nat) : a &&& m &&& m = a &&& m := by
  apply Nat.eq_of_testBit_eq
  intro i
  simp [Nat.testBit_land, Bool.and_assoc]

theorem permsEqual_self_mask (fl : Nat) : PermsEqual fl (fl &&& 0o777) = true := by
  unfold PermsEqual
  rw [land_idem_mask]
  simp

theorem chmodPass_any_mtime (env : FEnv) (cur : FileRec) (e : FEntry) (t : Int) :
    chmodPass env cur { e with mtime := t } = chmodPass env cur e := rfl

theorem chtimesPass_any_mode (env : FEnv) (cur : FileRec) (e : FEntry) (m : Nat) :
    chtimesPass env cur { e with mode := m } = chtimesPass env cur e := rfl

theorem chmodPass_idem (env : FEnv) (cur : FileRec) (e : FEntry) :
    chmodPass env cur { e with mode := (chmodPass env cur e).1 } =
      ((chmodPass env cur e).1, 0) := by
  unfold chmodPass
  by_cases hc : (!env.ignorePerms && HasPermissionBits cur.flags &&
      !PermsEqual cur.flags e.mode) = true
  · by_cases hf : env.chmodFails e.path = true
    · simp [hc, hf]
    · have hp := permsEqual_self_mask cur.flags
      simp [hc, hf, hp]
  · simp [hc]

theorem chtimesPass_idem (env : FEnv) (cur : FileRec) (e : FEntry) :
    chtimesPass env cur { e with mtime := (chtimesPass env cur e).1 } =
      ((chtimesPass env cur e).1, 0) := by
  unfold chtimesPass
  by_cases heq : (cur.modified == e.mtime) = true
  · simp [heq]
  · by_cases hf : env.chtimesFails e.path = true
    · simp [heq, hf]
    · simp [heq, hf]

theorem walkOne_skip (env : FEnv) (e : FEntry) (hs : walkSkip env e = true) :
    walkOne env e = (e, 0, none) := by
  unfold walkOne
  rw [if_pos hs]

theorem walkOne_tomb (env : FEnv) (e : FEntry) (hs : walkSkip env e = false)
    (hd : IsDeleted (env.current e.rn).flags = true) :
    walkOne env e = (e, 0, some e.path) := by
  unfold walkOne
  rw [if_neg (by simp [hs]), if_pos hd]

theorem walkOne_fix (env : FEnv) (e : FEntry) (hs : walkSkip env e = false)
    (hd : IsDeleted (env.current e.rn).flags = false) :
    walkOne env e =
      ({ e with mode := (chmodPass env (env.current e.rn) e).1,
                mtime := (chtimesPass env (env.current e.rn) e).1 },
       (chmodPass env (env.current e.rn) e).2 +
         (chtimesPass env (env.current e.rn) e).2,
       none) := by
  unfold walkOne
  rw [if_neg (by simp [hs]), if_neg (by simp [hd])]
  simp only [chtimesPass_any_mode]

theorem walkOne_fields (env : FEnv) (e : FEntry) :
    (walkOne env e).1.path = e.path ∧ (walkOne env e).1.rn = e.rn ∧
    (walkOne env e).1.isDir = e.isDir := by
  cases hs : walkSkip env e
  · cases hd : IsDeleted (env.current e.rn).flags
    · rw [walkOne_fix env e hs hd]
      exact ⟨rfl, rfl, rfl⟩
    · rw [walkOne_tomb env e hs hd]
      exact ⟨rfl, rfl, rfl⟩
  · rw [walkOne_skip env e hs]
    exact ⟨rfl, rfl, rfl⟩

theorem walkOne_queued_path (env : FEnv) (e : FEntry) (d : String)
    (h : (walkOne env e).2.2 = some d) : d = e.path := by
  cases hs : walkSkip env e
  · cases hd : IsDeleted (env.current e.rn).flags
    · rw [walkOne_fix env e hs hd] at h
      cases h
    · rw [walkOne_tomb env e hs hd] at h
      cases h
      rfl
  · rw [walkOne_skip env e hs] at h
    cases h

theorem walkOne_idem (env : FEnv) (e : FEntry) :
    walkOne env (walkOne env e).1 = ((walkOne env e).1, 0, (walkOne env e).2.2) := by
  cases hs : walkSkip env e
  case true =>
    have h := walkOne_skip env e hs
    rw [h]
    dsimp only
    rw [h]
  case false =>
    cases hd : IsDeleted (env.current e.rn).flags
    case true =>
      have h := walkOne_tomb env e hs hd
      rw [h]
      dsimp only
      rw [h]
    case false =>
      have hfix := walkOne_fix env e hs hd
      rw [hfix]
      dsimp only
      have hs2 : walkSkip env
          ({ e with mode := (chmodPass env (env.current e.rn) e).1,
                    mtime := (chtimesPass env (env.current e.rn) e).1 } : FEntry) =
          false := hs
      have hd2 : IsDeleted (env.current
          ({ e with mode := (chmodPass env (env.current e.rn) e).1,
                    mtime := (chtimesPass env (env.current e.rn) e).1 } : FEntry).rn).flags =
          false := hd
      rw [walkOne_fix env _ hs2 hd2]
      have h1 : chmodPass env (env.current e.rn)
          ({ e with mode := (chmodPass env (env.current e.rn) e).1,
                    mtime := (chtimesPass env (env.current e.rn) e).1 } : FEntry) =
          ((chmodPass env (env.current e.rn) e).1, 0) := by
        rw [chmodPass_any_mtime env (env.current e.rn)
          { e with mode := (chmodPass env (env.current e.rn) e).1 }]
        exact chmodPass_idem env (env.current e.rn) e
      have h2 : chtimesPass env (env.current e.rn)
          ({ e with mode := (chmodPass env (env.current e.rn) e).1,
                    mtime := (chtimesPass env (env.current e.rn) e).1 } : FEntry) =
          ((chtimesPass env (env.current e.rn) e).1, 0) := by
        rw [chtimesPass_any_mode env (env.current e.rn)
          { e with mtime := (chtimesPass env (env.current e.rn) e).1 }]
        exact chtimesPass_idem env (env.current e.rn) e
      rw [h1, h2]
      rfl

theorem entryChanged_walkOne (env : FEnv) (e : FEntry) :
    entryChanged env (walkOne env e).1 = 0 := by
  unfold entryChanged
  rw [walkOne_idem]

theorem entryQueued_walkOne (env : FEnv) (e : FEntry) :
    entryQueued env (walkOne env e).1 = entryQueued env e := by
  unfold entryQueued
  rw [walkOne_idem]

theorem fixables_walked (env : FEnv) (t : List FEntry) :
    fixables env (t.map fun e => (walkOne env e).1) = 0 := by
  unfold fixables
  rw [List.map_map]
  apply List.sum_eq_zero
  intro x hx
  simp only [List.mem_map, Function.comp] at hx
  obtain ⟨e, _, rfl⟩ := hx
  exact entryChanged_walkOne env e

theorem tombs_walked (env : FEnv) (t : List FEntry) :
    tombs env (t.map fun e => (walkOne env e).1) = tombs env t := by
  unfold tombs
  induction t with
  | nil => rfl
  | cons e tl ih => simp [List.countP_cons, entryQueued_walkOne, ih]

theorem paths_walked (env : FEnv) (t : List FEntry) :
    (t.map fun e => (walkOne env e).1).map FEntry.path = t.map FEntry.path := by
  induction t with
  | nil => rfl
  | cons e tl ih => simp [ih, (walkOne_fields env e).1]

theorem delFold_attempts (env : FEnv) (ds : List String) :
    ∀ (t : List FEntry) (d : Nat) (a : List String),
    (delFold env ds t d a).2.2 = a ++ ds := by
  induction ds with
  | nil =>
    intro t d a
    simp [delFold]
  | cons dir rest ih =>
    intro t d a
    unfold delFold
    by_cases h : removeOk env t dir = true
    · rw [if_pos h, ih]
      simp
    · rw [if_neg h, ih]
      simp

theorem delFold_sublist (env : FEnv) (ds : List String) :
    ∀ (t : List FEntry) (d : Nat) (a : List String),
    (delFold env ds t d a).1.Sublist t := by
  induction ds with
  | nil =>
    intro t d a
    simp [delFold]
  | cons dir rest ih =>
    intro t d a
    unfold delFold
    by_cases h : removeOk env t dir = true
    · rw [if_pos h]
      exact (ih _ _ _).trans (List.filter_sublist t)
    · rw [if_neg h]
      exact ih _ _ _

theorem countP_remove_tomb (env : FEnv) (t : List FEntry) (e : FEntry) (d : String)
    (hnd : (t.map FEntry.path).Nodup) (he : e ∈ t) (hp : e.path = d)
    (hq : entryQueued env e = true) :
    (t.filter fun x => !(x.path == d)).countP (entryQueued env) + 1 =
      t.countP (entryQueued env) := by
  induction t with
  | nil => cases he
  | cons h0 tl ih =>
    simp only [List.map_cons, List.nodup_cons] at hnd
    obtain ⟨hnm, hnd'⟩ := hnd
    by_cases hph : h0.path = d
    · have hflt : tl.filter (fun x => !(x.path == d)) = tl := by
        apply List.filter_eq_self.mpr
        intro x hx
        simp only [Bool.not_eq_true', beq_eq_false_iff_ne, ne_eq]
        intro hxd
        exact hnm (by rw [hph, ← hxd]; exact List.mem_map_of_mem FEntry.path hx)
      have he0 : entryQueued env h0 = true := by
        rcases List.mem_cons.mp he with rfl | hetl
        · exact hq
        · exact absurd (by rw [hph, ← hp]; exact List.mem_map_of_mem FEntry.path hetl) hnm
      simp [List.filter_cons, hph, hflt, List.countP_cons, he0]
    · have he' : e ∈ tl := by
        rcases List.mem_cons.mp he with rfl | hetl
        · exact absurd hp hph
        · exact hetl
      have hrec := ih hnd' he'
      have hkeep : (!(h0.path == d)) = true := by
        simp [hph]
      simp only [List.filter_cons, hkeep, if_true, List.countP_cons]
      omega

theorem delFold_tombs (env : FEnv) (ds : List String) :
    ∀ (t : List FEntry) (d : Nat) (a : List String),
    (t.map FEntry.path).Nodup →
    (∀ dir ∈ ds, ∀ e ∈ t, e.path = dir → entryQueued env e = true) →
    tombs env (delFold env ds t d a).1 + (delFold env ds t d a).2.1 =
      tombs env t + d := by
  induction ds with
  | nil =>
    intro t d a _ _
    simp [delFold]
  | cons dir rest ih =>
    intro t d a hnd hq
    unfold delFold
    by_cases h : removeOk env t dir = true
    · rw [if_pos h]
      have hpres : ∃ e ∈ t, e.path = dir := by
        unfold removeOk at h
        simp only [Bool.and_eq_true, List.any_eq_true, beq_iff_eq] at h
        exact h.1.1
      obtain ⟨e, he, hep⟩ := hpres
      have heq := hq dir (List.mem_cons_self _ _) e he hep
      have hcount := countP_remove_tomb env t e dir hnd he hep heq
      have hnd' : ((t.filter fun x => !(x.path == dir)).map FEntry.path).Nodup :=
        List.Nodup.sublist (List.Sublist.map _ (List.filter_sublist t)) hnd
      have hq' : ∀ dir' ∈ rest, ∀ e' ∈ t.filter fun x => !(x.path == dir),
          e'.path = dir' → entryQueued env e' = true := by
        intro dir' hd' e' he' hp'
        exact hq dir' (List.mem_cons_of_mem _ hd') e' (List.mem_of_mem_filter he') hp'
      have hrec := ih (t.filter fun x => !(x.path == dir)) (d + 1) (a ++ [dir]) hnd' hq'
      unfold tombs at hrec hcount ⊢
      omega
    · rw [if_neg h]
      apply ih t d _ hnd
      intro dir' hd' e' he' hp'
      exact hq dir' (List.mem_cons_of_mem _ hd') e' he' hp'

theorem fixables_zero_sublist (env : FEnv) {t1 t2 : List FEntry} (hsub : t2.Sublist t1)
    (h0 : fixables env t1 = 0) : fixables env t2 = 0 := by
  unfold fixables at h0 ⊢
  apply List.sum_eq_zero
  intro x hx
  simp only [List.mem_map] at hx
  obtain ⟨e, he, rfl⟩ := hx
  have he1 : e ∈ t1 := hsub.subset he
  exact List.sum_eq_zero_iff.mp h0 _ (List.mem_map_of_mem (entryChanged env) he1)

theorem step_queue_tomb (env : FEnv) (t : List FEntry)
    (hnd : (t.map FEntry.path).Nodup) :
    ∀ dir ∈ (t.filterMap fun e => (walkOne env e).2.2).reverse,
    ∀ e1 ∈ t.map fun e => (walkOne env e).1,
    e1.path = dir → entryQueued env e1 = true := by
  intro dir hdir e1 he1 hp
  rw [List.mem_reverse] at hdir
  obtain ⟨e, he, hsome⟩ := List.mem_filterMap.mp hdir
  have hdp : dir = e.path := walkOne_queued_path env e dir hsome
  obtain ⟨e', he', rfl⟩ := List.mem_map.mp he1
  have hpe : e'.path = e.path := by
    rw [← (walkOne_fields env e').1, hp, hdp]
  have hee : e' = e := List.inj_on_of_nodup_map hnd he' he hpe
  subst hee
  rw [entryQueued_walkOne]
  unfold entryQueued
  rw [hsome]
  rfl

theorem fixupStep_measure (env : FEnv) (t : List FEntry)
    (hnd : (t.map FEntry.path).Nodup) :
    fmeasure env (fixupStep env t).tree + (fixupStep env t).changed +
        (fixupStep env t).deleted = fmeasure env t ∧
    ((fixupStep env t).tree.map FEntry.path).Nodup := by
  have hpaths := paths_walked env t
  have hnd1 : ((t.map fun e => (walkOne env e).1).map FEntry.path).Nodup := by
    rw [hpaths]
    exact hnd
  have hq := step_queue_tomb env t hnd
  have hdel := delFold_tombs env ((t.filterMap fun e => (walkOne env e).2.2).reverse)
    (t.map fun e => (walkOne env e).1) 0 [] hnd1 hq
  have htombs1 := tombs_walked env t
  have hfix1 := fixables_walked env t
  have hsub := delFold_sublist env ((t.filterMap fun e => (walkOne env e).2.2).reverse)
    (t.map fun e => (walkOne env e).1) 0 []
  have hfixtree : fixables env (fixupStep env t).tree = 0 :=
    fixables_zero_sublist env hsub hfix1
  have hch : (fixupStep env t).changed = fixables env t := rfl
  have hdel' : tombs env (fixupStep env t).tree + (fixupStep env t).deleted =
      tombs env (t.map fun e => (walkOne env e).1) + 0 := hdel
  constructor
  · unfold fmeasure
    omega
  · exact List.Nodup.sublist (List.Sublist.map _ hsub) hnd1

theorem entryChanged_le_two (env : FEnv) (e : FEntry) : entryChanged env e ≤ 2 := by
  unfold entryChanged
  cases hs : walkSkip env e
  · cases hd : IsDeleted (env.current e.rn).flags
    · rw [walkOne_fix env e hs hd]
      have h1 : (chmodPass env (env.current e.rn) e).2 ≤ 1 := by
        unfold chmodPass
        split
        · split
          · exact Nat.zero_le 1
          · exact Nat.le_refl 1
        · exact Nat.zero_le 1
      have h2 : (chtimesPass env (env.current e.rn) e).2 ≤ 1 := by
        unfold chtimesPass
        split
        · exact Nat.zero_le 1
        · split
          · exact Nat.zero_le 1
          · exact Nat.le_refl 1
      show (chmodPass env (env.current e.rn) e).2 +
        (chtimesPass env (env.current e.rn) e).2 ≤ 2
      omega
    · rw [walkOne_tomb env e hs hd]
      exact Nat.zero_le 2
  · rw [walkOne_skip env e hs]
    exact Nat.zero_le 2

theorem fixables_le (env : FEnv) (t : List FEntry) :
    fixables env t ≤ 2 * t.length := by
  unfold fixables
  induction t with
  | nil => simp
  | cons e tl ih =>
    simp only [List.map_cons, List.sum_cons, List.length_cons]
    have := entryChanged_le_two env e
    omega

theorem fmeasure_le (env : FEnv) (t : List FEntry) :
    fmeasure env t ≤ 3 * t.length := by
  unfold fmeasure tombs
  have h1 := fixables_le env t
  have h2 : t.countP (entryQueued env) ≤ t.length := List.countP_le_length _
  omega

theorem fixupLoop_isSome (env : FEnv) :
    ∀ (fuel : Nat) (t : List FEntry), (t.map FEntry.path).Nodup →
    fmeasure env t < fuel → (fixupLoop env fuel t).isSome = true := by
  intro fuel
  induction fuel with
  | zero =>
    intro t _ h
    omega
  | succ n ih =>
    intro t hnd hm
    unfold fixupLoop
    by_cases hz : (fixupStep env t).changed + (fixupStep env t).deleted = 0
    · rw [if_pos hz]
      rfl
    · rw [if_neg hz]
      obtain ⟨hmeq, hnd'⟩ := fixupStep_measure env t hnd
      exact ih (fixupStep env t).tree hnd' (by omega)

/-- **C6.** For every directory tree (its walked paths being distinct) and
every model view, the outer loop of `fixupDirectories` terminates: within at
most `3·n + 1` iterations (`n` the number of walked entries — each entry
contributes at most two metadata restorations and one deletion to the
progress measure) an iteration performs no metadata change and no deletion
(`changed + deleted == 0`) and the function returns.  Moreover every
iteration attempts its queued directory deletions exactly in reverse
(deepest-first) order of the walk. -/
theorem fixupDirectories_terminates (env : FEnv) (t : List FEntry)
    (hnd : (t.map FEntry.path).Nodup) :
    (fixupLoop env (3 * t.length + 1) t).isSome = true ∧
    ∀ u : List FEntry, (fixupStep env u).attempts = (fixupStep env u).queue.reverse := by
  constructor
  · apply fixupLoop_isSome env (3 * t.length + 1) t hnd
    have := fmeasure_le env t
    omega
  · intro u
    show (delFold env ((u.filterMap fun e => (walkOne env e).2.2).reverse)
      (u.map fun e => (walkOne env e).1) 0 []).2.2 =
      (u.filterMap fun e => (walkOne env e).2.2).reverse
    rw [delFold_attempts]
    simp

def c6env : FEnv :=
  { current := fun rn => { name := rn, flags := FlagDeleted, modified := 0 },
    ignorePerms := false, chmodFails := fun _ => false,
    chtimesFails := fun _ => false, removeFails := fun _ => false }

def c6t : List FEntry :=
  [{ path := "r/a", rn := "a", isDir := true, mode := 0o755, mtime := 0 },
   { path := "r/a/b", rn := "a/b", isDir := true, mode := 0o755, mtime := 0 }]

/-- Witness for `fixupDirectories_terminates`: two nested tombstoned
directories; the loop returns within the bound and deletions are attempted
deepest first. -/
theorem fixupDirectories_terminates_witness :
    (fixupLoop c6env (3 * c6t.length + 1) c6t).isSome = true ∧
    (fixupStep c6env c6t).attempts = (fixupStep c6env c6t).queue.reverse :=
  ⟨(fixupDirectories_terminates c6env c6t (by decide)).1,
   (fixupDirectories_terminates c6env c6t (by decide)).2 c6t⟩
